import Mathlib

/-!
Verification of the prompt-gamma timing reconstruction program.

The development shallowly embeds the numeric core of the repository:
the Bragg-curve dose model (`CreateBraggCurve`), the proton velocity and
time-of-flight kinematics (`velocities`, `ProtonTime`), the stochastic
burst simulator (`SimulateBurst`, with the Poisson counts and the Gaussian
jitter draws passed in as explicit inputs), and the timing-based
reconstruction (`Reconstruction`).  Machine floats are modelled as exact
reals; numpy arrays as lists aligned with the depth axis; exceptions as
an explicit `Except` value.
-/

open Classical

noncomputable section

namespace PGT

/-- Python exception kinds the embedded code can raise: a failed dictionary
lookup (`KeyError`, a `LookupError`), an out-of-range numpy index assignment
(`IndexError`), and numpy's `ValueError` from a reduction over an empty
array. -/
inductive PyError
  | keyError
  | indexError
  | valueError
deriving DecidableEq

/-- Minimum of a numpy array, as the fold numpy performs on a nonempty
array.  The empty case never reaches this function: callers surface
numpy's `ValueError` before using it (see `Reconstruction`). -/
def npMin : List ℝ → ℝ
  | [] => 0
  | x :: xs => xs.foldl min x

/-- Maximum of a numpy array, nonempty case; see `npMin`. -/
def npMax : List ℝ → ℝ
  | [] => 0
  | x :: xs => xs.foldl max x

/-- Embedding of `np.arange(start, stop, step)` for positive `step`:
the values `start + i * step` for `0 ≤ i < ⌈(stop - start) / step⌉`. -/
def npArange (start stop step : ℝ) : List ℝ :=
  (List.range (Int.ceil ((stop - start) / step)).toNat).map
    (fun (i : ℕ) => start + (i : ℝ) * step)

/-- Embedding of `np.repeat(xs, ks)`: element `xs[i]` is replicated
`ks[i]` times, blocks concatenated in order. -/
def npRepeat (xs : List ℝ) (ks : List ℕ) : List ℝ :=
  (List.zipWith (fun x k => List.replicate k x) xs ks).join

/-- Per-depth dose of `CreateBraggCurve` (forwardPass.py lines 82-96):
constant entrance dose plus a Gaussian peak, multiplied past the peak
(the strict mask `depths > braggPosition`) by an exponential falloff. -/
def braggDose (braggPosition peakHeight entranceDose peakWidth falloffSteepness z : ℝ) : ℝ :=
  let entrance := entranceDose
  let peak := peakHeight * Real.exp (-(z - braggPosition) ^ 2 / (2 * peakWidth ^ 2))
  if braggPosition < z then
    (entrance + peak) * Real.exp (-(z - braggPosition) / falloffSteepness)
  else
    entrance + peak

/-- `CreateBraggCurve(depths, braggPosition, peakHeight, entranceDose,
peakWidth, falloffSteepness)`: the elementwise dose over the depth axis.
The source's Python default arguments are `1.0, 0.3, 8, 5`, the values
used at both call sites. -/
def CreateBraggCurve (depths : List ℝ)
    (braggPosition peakHeight entranceDose peakWidth falloffSteepness : ℝ) : List ℝ :=
  depths.map (braggDose braggPosition peakHeight entranceDose peakWidth falloffSteepness)

/-- One iteration of the loop body of `velocities` (forwardPass.py lines
114-124): remaining energy `initialE - ez` clamped at zero, then the
relativistic velocity `beta * 3e8` with rest energy `938.3` MeV. -/
def velAt (initialE ez : ℝ) : ℝ :=
  let energy := if initialE - ez ≤ 0 then 0 else initialE - ez
  Real.sqrt (1 - (938.3 / (energy + 938.3)) ^ 2) * 3e8

/-- The lookup-and-append loop of `velocities`: raises `KeyError` when a
depth is missing from the energy table, otherwise produces
`velAt initialE (energies z)` per depth in order. -/
def velLoop (energies : ℝ → Option ℝ) (initialE : ℝ) : List ℝ → Except PyError (List ℝ)
  | [] => Except.ok []
  | z :: zs =>
    match energies z with
    | none => Except.error PyError.keyError
    | some ez =>
      match velLoop energies initialE zs with
      | Except.error e => Except.error e
      | Except.ok vs => Except.ok (velAt initialE ez :: vs)

/-- `velocities(phantom, initialE)` (forwardPass.py lines 99-130): the
energy-table loop, then the overrides `vel[0] = vel[1] = 0.662 * 3e8`
(which raise `IndexError` when the array has fewer than two entries). -/
def velocities (energies : ℝ → Option ℝ) (phantom : List ℝ) (initialE : ℝ) :
    Except PyError (List ℝ) :=
  match velLoop energies initialE phantom with
  | Except.error e => Except.error e
  | Except.ok vs =>
    if 2 ≤ vs.length then
      Except.ok ((vs.set 0 (0.662 * 3e8)).set 1 (0.662 * 3e8))
    else
      Except.error PyError.indexError

/-- Embedding of `scipy.integrate.cumulative_trapezoid(ys, xs, initial=0)`:
partial sums of the trapezoid areas `(x2 - x1) * (y1 + y2) / 2`, with a
leading `0`. -/
def cumtrapz : List ℝ → List ℝ → List ℝ
  | y1 :: y2 :: ys, x1 :: x2 :: xs =>
    0 :: (cumtrapz (y2 :: ys) (x2 :: xs)).map (fun t => t + (x2 - x1) * (y1 + y2) / 2)
  | _, _ => [0]

/-- `ProtonTime(velocities, phantom)` (forwardPass.py lines 133-158):
cumulative trapezoidal integral of the reciprocal velocity, where a zero
velocity contributes a zero integrand instead of a division by zero. -/
def ProtonTime (vel phantom : List ℝ) : List ℝ :=
  cumtrapz (vel.map (fun v => if v = 0 then 0 else 1 / v)) phantom

/-- The per-bin base arrival times of `SimulateBurst` (forwardPass.py
lines 197-198): gamma flight time `distMag / 3e8` plus the proton
time of flight. -/
def baseTimes (distMag tp : List ℝ) : List ℝ :=
  List.zipWith (fun d t => d / 3e8 + t) distMag tp

/-- The deterministic mean detected-photon count per bin of
`SimulateBurst` (forwardPass.py lines 182-190): normalized dose times
`pPB * yiel`, times solid-angle sensitivity, times attenuation. -/
def burstMean (phantom distMag : List ℝ) (peak pPB yiel dArea mu : ℝ) : List ℝ :=
  let dose := CreateBraggCurve phantom peak 1.0 0.3 8 5
  let doseN := dose.map (fun d => d / npMax dose)
  let nEmit := doseN.map (fun d => pPB * yiel * d)
  List.zipWith
    (fun ne dm => ne * (dArea / (4 * Real.pi * (dm / 1000) ^ 2)) * Real.exp (-mu * (dm / 10)))
    nEmit distMag

/-- `SimulateBurst` (forwardPass.py lines 193-205) with the randomness
made explicit: `k` is the list of detected counts per bin (the Poisson
draw around `burstMean` plus the Poisson background) and `jitter` holds
one Gaussian timing-jitter draw per individual timestamp.  The result is
`np.repeat(baseTime, k) + jitter`. -/
def SimulateBurst (phantom distMag : List ℝ) (peak pPB yiel dArea mu : ℝ)
    (tp : List ℝ) (k : List ℕ) (jitter : List ℝ) : List ℝ :=
  List.zipWith (· + ·) (npRepeat (baseTimes distMag tp) k) jitter

/-- The unnormalized Gaussian weights of `Reconstruction` (line 42):
`exp(-|tExpected - tBin|^2 / (2 * sigma^2))` per depth bin. -/
def gaussWeights (tExpected : List ℝ) (tBin σ : ℝ) : List ℝ :=
  tExpected.map (fun t => Real.exp (-|t - tBin| ^ 2 / (2 * σ ^ 2)))

/-- The normalized weights of `Reconstruction` (line 43): each Gaussian
weight divided by the sum over depth bins. -/
def normWeights (tExpected : List ℝ) (tBin σ : ℝ) : List ℝ :=
  (gaussWeights tExpected tBin σ).map (fun w => w / (gaussWeights tExpected tBin σ).sum)

/-- Embedding of `np.histogram(data, bins=edges)` counts: half-open bins
`[a, b)` except the final bin, which is closed `[a, b]`; fewer than two
edges yield no bins. -/
def histCounts (data : List ℝ) : List ℝ → List ℕ
  | [a, b] => [data.countP (fun x => decide (a ≤ x ∧ x ≤ b))]
  | a :: b :: c :: rest =>
    data.countP (fun x => decide (a ≤ x ∧ x < b)) :: histCounts data (b :: c :: rest)
  | _ => []

/-- The histogram bin edges of `Reconstruction` (line 27):
`np.arange(data.min(), data.max() + tBinWidth, tBinWidth)`. -/
def histEdges (data : List ℝ) (tBinWidth : ℝ) : List ℝ :=
  npArange (npMin data) (npMax data + tBinWidth) tBinWidth

/-- The bin centres of `Reconstruction` (line 28):
`(edges[:-1] + edges[1:]) / 2`. -/
def tBinCentres (edges : List ℝ) : List ℝ :=
  List.zipWith (fun a b => (a + b) / 2) edges.dropLast edges.tail

/-- One iteration of the accumulation loop of `Reconstruction` (lines
34-45): a time bin `tb` (centre, count) with count zero is skipped;
otherwise `count * normWeights` is added elementwise to the
accumulator. -/
def backStep (tExpected : List ℝ) (σ : ℝ) (acc : List ℝ) (tb : ℝ × ℕ) : List ℝ :=
  if tb.2 = 0 then acc
  else List.zipWith (fun a w => a + (tb.2 : ℝ) * w) acc (normWeights tExpected tb.1 σ)

/-- The accumulation loop of `Reconstruction` (lines 31-45): starting
from `np.zeros_like(phantom)`, each time bin with a nonzero count adds
`count * normWeights` to the accumulator; empty bins are skipped. -/
def backproject (tExpected : List ℝ) (σ : ℝ) (n : ℕ) (bins : List (ℝ × ℕ)) : List ℝ :=
  bins.foldl (backStep tExpected σ) (List.replicate n 0)

/-- The solid-angle sensitivity of `Reconstruction` (line 50):
`dArea / (4 * pi * (distMag / 1000)^2)` per depth bin. -/
def sensitivity (dArea : ℝ) (distMag : List ℝ) : List ℝ :=
  distMag.map (fun d => dArea / (4 * Real.pi * (d / 1000) ^ 2))

/-- The final correction of `Reconstruction` (line 51): elementwise
division of the accumulated profile by `sensitivity * aFactor`. -/
def correct (recon : List ℝ) (dArea : ℝ) (distMag : List ℝ) (aFactor : ℝ) : List ℝ :=
  List.zipWith (fun r s => r / (s * aFactor)) recon (sensitivity dArea distMag)

/-- `Reconstruction(phantom, detectorData, tp, gammaTOF, tBinWidth,
sigma, dArea, distMag, aFactor)` (Reconstruction.py lines 4-53).  On an
empty timestamp array, `detectorData.min()` raises numpy's `ValueError`
(zero-size reduction), so the embedding returns that error; otherwise the
histogram, the Gaussian back-projection, and the sensitivity correction
run in order. -/
def Reconstruction (phantom detectorData tp gammaTOF : List ℝ)
    (tBinWidth σ dArea : ℝ) (distMag : List ℝ) (aFactor : ℝ) :
    Except PyError (List ℝ) :=
  match detectorData with
  | [] => Except.error PyError.valueError
  | _ :: _ =>
    let tExpected := List.zipWith (· + ·) tp gammaTOF
    let edges := histEdges detectorData tBinWidth
    let centres := tBinCentres edges
    let counts := histCounts detectorData edges
    let recon := backproject tExpected σ phantom.length (centres.zip counts)
    Except.ok (correct recon dArea distMag aFactor)

/-! ### Helper lemmas -/

lemma sum_map_div (l : List ℝ) (S : ℝ) : (l.map (fun w => w / S)).sum = l.sum / S := by
  induction l with
  | nil => simp
  | cons a t ih => simp [ih, add_div]

lemma gaussWeights_sum_pos (tExpected : List ℝ) (tBin σ : ℝ) (h : tExpected ≠ []) :
    0 < (gaussWeights tExpected tBin σ).sum := by
  apply List.sum_pos
  · intro w hw
    simp only [gaussWeights, List.mem_map] at hw
    obtain ⟨t, _, rfl⟩ := hw
    exact Real.exp_pos _
  · simpa [gaussWeights] using h

lemma normWeights_sum (tExpected : List ℝ) (tBin σ : ℝ) (h : tExpected ≠ []) :
    (normWeights tExpected tBin σ).sum = 1 := by
  have hS := gaussWeights_sum_pos tExpected tBin σ h
  rw [normWeights, sum_map_div]
  exact div_self (ne_of_gt hS)

lemma length_CreateBraggCurve (depths : List ℝ) (b ph ed pw fs : ℝ) :
    (CreateBraggCurve depths b ph ed pw fs).length = depths.length := by
  simp [CreateBraggCurve]

lemma braggDose_strictAnti (b d1 d2 : ℝ) (h1 : b < d1) (h12 : d1 < d2) :
    braggDose b 1 0.3 8 5 d2 < braggDose b 1 0.3 8 5 d1 := by
  have h2 : b < d2 := h1.trans h12
  unfold braggDose
  rw [if_pos h1, if_pos h2]
  have hden : (0:ℝ) < 2 * 8 ^ 2 := by norm_num
  have hsq : (d1 - b) ^ 2 < (d2 - b) ^ 2 := by nlinarith
  have hpeak : Real.exp (-(d2 - b) ^ 2 / (2 * 8 ^ 2)) < Real.exp (-(d1 - b) ^ 2 / (2 * 8 ^ 2)) := by
    apply Real.exp_lt_exp.mpr
    exact (div_lt_div_right hden).mpr (by linarith)
  have hfall : Real.exp (-(d2 - b) / 5) < Real.exp (-(d1 - b) / 5) := by
    apply Real.exp_lt_exp.mpr
    exact (div_lt_div_right (by norm_num : (0:ℝ) < 5)).mpr (by linarith)
  have hF2 : 0 < Real.exp (-(d2 - b) / 5) := Real.exp_pos _
  exact mul_lt_mul'' (by linarith) hfall (by positivity) hF2.le

/-! ### Claim theorems -/

/-- Claim C2 (status: code bug in the source): on the empty timestamp
collection, `Reconstruction` does not perform an explicit input-validation
check; it propagates numpy's `ValueError` raised by the `min()` reduction
over the empty array, rather than the descriptive InvalidInput-style
failure the claim describes.  This theorem evaluates the code at the
failing input. -/
theorem claim_C2_empty_eval (phantom tp gammaTOF : List ℝ) (tBinWidth σ dArea : ℝ)
    (distMag : List ℝ) (aFactor : ℝ) :
    Reconstruction phantom [] tp gammaTOF tBinWidth σ dArea distMag aFactor
      = Except.error PyError.valueError := rfl

/-- Claim C3: in `Reconstruction`, for any time bin and positive sigma,
the Gaussian weights over a nonempty depth axis sum to exactly 1 after
normalization, in exact real arithmetic. -/
theorem claim_C3_weights_sum_one (tExpected : List ℝ) (tBin σ : ℝ)
    (hne : tExpected ≠ []) (_hσ : 0 < σ) :
    (normWeights tExpected tBin σ).sum = 1 :=
  normWeights_sum tExpected tBin σ hne

/-- Witness for C3 at a concrete input. -/
theorem claim_C3_witness : (normWeights [(0:ℝ)] 0 1).sum = 1 :=
  claim_C3_weights_sum_one [(0:ℝ)] 0 1 (by simp) (by norm_num)

lemma velAt_bounds (initialE ez : ℝ) : 0 ≤ velAt initialE ez ∧ velAt initialE ez ≤ 3e8 := by
  unfold velAt
  set energy := if initialE - ez ≤ 0 then 0 else initialE - ez with hE
  have hE0 : (0:ℝ) ≤ energy := by
    rw [hE]
    split
    · exact le_refl 0
    · linarith [not_le.mp (by assumption : ¬ initialE - ez ≤ 0)]
  have hden : (0:ℝ) < energy + 938.3 := by linarith
  have hr1 : (938.3 : ℝ) / (energy + 938.3) ≤ 1 := by
    rw [div_le_one hden]
    linarith
  have hr0 : (0:ℝ) ≤ 938.3 / (energy + 938.3) := by positivity
  have hsqrt1 : Real.sqrt (1 - (938.3 / (energy + 938.3)) ^ 2) ≤ 1 := by
    rw [Real.sqrt_le_one]
    nlinarith [sq_nonneg (938.3 / (energy + 938.3))]
  constructor
  · positivity
  · calc Real.sqrt (1 - (938.3 / (energy + 938.3)) ^ 2) * 3e8
        ≤ 1 * 3e8 := by
          apply mul_le_mul_of_nonneg_right hsqrt1 (by norm_num)
    _ = 3e8 := by norm_num

lemma velLoop_mem (energies : ℝ → Option ℝ) (initialE : ℝ) :
    ∀ (zs : List ℝ) (vs : List ℝ), velLoop energies initialE zs = Except.ok vs →
      ∀ v ∈ vs, ∃ ez, v = velAt initialE ez := by
  intro zs
  induction zs with
  | nil =>
    intro vs h v hv
    simp only [velLoop] at h
    cases h
    simp at hv
  | cons z t ih =>
    intro vs h v hv
    simp only [velLoop] at h
    cases he : energies z with
    | none => rw [he] at h; cases h
    | some ez =>
      rw [he] at h
      cases ht : velLoop energies initialE t with
      | error e => rw [ht] at h; cases h
      | ok vs0 =>
        rw [ht] at h
        cases h
        rcases List.mem_cons.mp hv with rfl | hmem
        · exact ⟨ez, rfl⟩
        · exact ih vs0 ht v hmem

/-- Claim C5: whenever `velocities` succeeds, every entry of the returned
velocity profile lies in `[0, 3e8]`: the relativistic entries because the
remaining energy is clamped at zero, and the two overridden entrance bins
because `0.662 * 3e8 ≤ 3e8`. -/
theorem claim_C5_velocity_bounds (energies : ℝ → Option ℝ) (phantom : List ℝ)
    (initialE : ℝ) (vs : List ℝ) (v : ℝ)
    (h : velocities energies phantom initialE = Except.ok vs) (hv : v ∈ vs) :
    0 ≤ v ∧ v ≤ 3e8 := by
  cases hvl : velLoop energies initialE phantom with
  | error e => simp [velocities, hvl] at h
  | ok vs0 =>
    simp only [velocities, hvl] at h
    by_cases h2 : 2 ≤ vs0.length
    · rw [if_pos h2] at h
      cases h
      rcases List.mem_or_eq_of_mem_set hv with hv1 | rfl
      · rcases List.mem_or_eq_of_mem_set hv1 with hv2 | rfl
        · obtain ⟨ez, rfl⟩ := velLoop_mem energies initialE phantom vs0 hvl v hv2
          exact velAt_bounds initialE ez
        · constructor <;> norm_num
      · constructor <;> norm_num
    · rw [if_neg h2] at h
      cases h

/-- Witness for C5 at a concrete input: a two-bin phantom whose entries
are both overridden to the entrance velocity. -/
theorem claim_C5_witness : 0 ≤ (0.662 * 3e8 : ℝ) ∧ (0.662 * 3e8 : ℝ) ≤ 3e8 :=
  claim_C5_velocity_bounds (fun _ => some 0) [0, 1] 0
    [0.662 * 3e8, 0.662 * 3e8] (0.662 * 3e8)
    (by simp [velocities, velLoop, List.set]) (by simp)

lemma velLoop_error_of_missing (energies : ℝ → Option ℝ) (initialE : ℝ) :
    ∀ (zs : List ℝ), (∃ z ∈ zs, energies z = none) →
      velLoop energies initialE zs = Except.error PyError.keyError := by
  intro zs
  induction zs with
  | nil => rintro ⟨z, hz, _⟩; simp at hz
  | cons z t ih =>
    rintro ⟨z0, hz0, hnone⟩
    rcases List.mem_cons.mp hz0 with rfl | hmem
    · simp [velLoop, hnone]
    · cases he : energies z with
      | none => simp [velLoop, he]
      | some e => simp [velLoop, he, ih ⟨z0, hmem, hnone⟩]

lemma velLoop_ok_of_total (energies : ℝ → Option ℝ) (initialE : ℝ) :
    ∀ (zs : List ℝ), (∀ z ∈ zs, energies z ≠ none) →
      ∃ vs, velLoop energies initialE zs = Except.ok vs := by
  intro zs
  induction zs with
  | nil => intro _; exact ⟨[], rfl⟩
  | cons z t ih =>
    intro h
    obtain ⟨vs0, hvs0⟩ := ih (fun z hz => h z (List.mem_cons_of_mem _ hz))
    cases he : energies z with
    | none => exact absurd he (h z (List.mem_cons_self z t))
    | some e => exact ⟨velAt initialE e :: vs0, by simp [velLoop, he, hvs0]⟩

/-- Claim C9: `velocities` fails with the `KeyError` (a `LookupError`)
exactly in the lookup-failure situation: when some depth of the phantom is
not a key of the energy table the `KeyError` is raised, and when every
depth is a key no `KeyError` is raised. -/
theorem claim_C9_lookup_failure (energies : ℝ → Option ℝ) (phantom : List ℝ)
    (initialE : ℝ) :
    ((∃ z ∈ phantom, energies z = none) →
      velocities energies phantom initialE = Except.error PyError.keyError)
    ∧ ((∀ z ∈ phantom, energies z ≠ none) →
      velocities energies phantom initialE ≠ Except.error PyError.keyError) := by
  constructor
  · intro h
    simp [velocities, velLoop_error_of_missing energies initialE phantom h]
  · intro h
    obtain ⟨vs, hvs⟩ := velLoop_ok_of_total energies initialE phantom h
    simp only [velocities, hvs]
    split <;> simp

/-- Witness for C9: a table with no keys raises the error on a one-bin
phantom; a total table does not raise it. -/
theorem claim_C9_witness :
    velocities (fun _ => none) [(0:ℝ)] 0 = Except.error PyError.keyError
    ∧ velocities (fun _ => some 0) [(0:ℝ)] 0 ≠ Except.error PyError.keyError :=
  ⟨(claim_C9_lookup_failure (fun _ => none) [(0:ℝ)] 0).1 ⟨0, by simp, rfl⟩,
   (claim_C9_lookup_failure (fun _ => some 0) [(0:ℝ)] 0).2 (by simp)⟩

/-- Claim C6: over any strictly increasing depth axis, the Bragg curve
(with the source's default parameters `1, 0.3, 8, 5`, the ones used at
both call sites) is strictly decreasing on the depths strictly beyond the
peak position: a later depth gets a strictly smaller dose. -/
theorem claim_C6_falloff_strictAnti (depths : List ℝ) (b : ℝ)
    (hmono : List.Pairwise (· < ·) depths)
    (i j : ℕ) (hi : i < depths.length) (hj : j < depths.length) (hij : i < j)
    (hpast : b < depths.get ⟨i, hi⟩) :
    (CreateBraggCurve depths b 1 0.3 8 5).get
        ⟨j, by rw [length_CreateBraggCurve]; exact hj⟩
      < (CreateBraggCurve depths b 1 0.3 8 5).get
        ⟨i, by rw [length_CreateBraggCurve]; exact hi⟩ := by
  have hd : depths.get ⟨i, hi⟩ < depths.get ⟨j, hj⟩ :=
    List.pairwise_iff_get.mp hmono ⟨i, hi⟩ ⟨j, hj⟩ hij
  simp only [CreateBraggCurve, List.get_eq_getElem, List.getElem_map] at hpast hd ⊢
  exact braggDose_strictAnti b _ _ hpast hd

/-- Witness for C6 at a concrete input: depths 151 and 152 past a peak
at 150. -/
theorem claim_C6_witness :
    (CreateBraggCurve [151, 152] 150 1 0.3 8 5).get
        ⟨1, by rw [length_CreateBraggCurve]; norm_num⟩
      < (CreateBraggCurve [151, 152] 150 1 0.3 8 5).get
        ⟨0, by rw [length_CreateBraggCurve]; norm_num⟩ :=
  claim_C6_falloff_strictAnti [151, 152] 150
    (by norm_num [List.pairwise_cons]) 0 1 (by norm_num) (by norm_num) (by norm_num)
    (by norm_num [List.get])

lemma cumtrapz_head (ys xs : List ℝ) : (cumtrapz ys xs).head? = some 0 := by
  unfold cumtrapz
  split <;> simp

lemma cumtrapz_props : ∀ (ys xs : List ℝ), (∀ y ∈ ys, 0 ≤ y) → List.Chain' (· < ·) xs →
    (∀ t ∈ cumtrapz ys xs, 0 ≤ t) ∧ List.Chain' (· ≤ ·) (cumtrapz ys xs) := by
  intro ys
  induction ys with
  | nil =>
    intro xs _ _
    refine ⟨fun t ht => ?_, ?_⟩
    · simp only [cumtrapz, List.mem_singleton] at ht
      simp [ht]
    · simp [cumtrapz]
  | cons y1 ytail ih =>
    intro xs hy hx
    cases ytail with
    | nil =>
      refine ⟨fun t ht => ?_, ?_⟩
      · simp only [cumtrapz, List.mem_singleton] at ht
        simp [ht]
      · simp [cumtrapz]
    | cons y2 yrest =>
      cases xs with
      | nil =>
        refine ⟨fun t ht => ?_, ?_⟩
        · simp only [cumtrapz, List.mem_singleton] at ht
          simp [ht]
        · simp [cumtrapz]
      | cons x1 xtail =>
        cases xtail with
        | nil =>
          refine ⟨fun t ht => ?_, ?_⟩
          · simp only [cumtrapz, List.mem_singleton] at ht
            simp [ht]
          · simp [cumtrapz]
        | cons x2 xrest =>
          have hx12 : x1 < x2 := List.chain'_cons.mp hx |>.1
          have hxtail : List.Chain' (· < ·) (x2 :: xrest) := List.chain'_cons.mp hx |>.2
          have hytail : ∀ y ∈ y2 :: yrest, 0 ≤ y :=
            fun y hy2 => hy y (List.mem_cons_of_mem _ hy2)
          obtain ⟨ihn, ihc⟩ := ih (x2 :: xrest) hytail hxtail
          have hΔ : 0 ≤ (x2 - x1) * (y1 + y2) / 2 := by
            have hy1 : 0 ≤ y1 := hy y1 (List.mem_cons_self _ _)
            have hy2 : 0 ≤ y2 := hytail y2 (List.mem_cons_self _ _)
            have : 0 ≤ x2 - x1 := by linarith
            positivity
          constructor
          · intro t ht
            simp only [cumtrapz, List.mem_cons, List.mem_map] at ht
            rcases ht with rfl | ⟨t0, ht0, rfl⟩
            · exact le_refl 0
            · have := ihn t0 ht0
              linarith
          · show List.Chain' (· ≤ ·)
              (0 :: (cumtrapz (y2 :: yrest) (x2 :: xrest)).map
                (fun t => t + (x2 - x1) * (y1 + y2) / 2))
            rw [List.chain'_cons']
            constructor
            · intro h hh
              rw [List.head?_map, cumtrapz_head] at hh
              simp at hh
              linarith [hh]
            · rw [List.chain'_map]
              exact ihc.imp (fun a b hab => by linarith)

/-- Claim C4: for a velocity profile with nonnegative entries and a
strictly increasing depth axis, `ProtonTime` (whose integrand is `0` at
zero velocities instead of a division by zero) starts at `0`, is
nonnegative, and is non-decreasing along the depth axis. -/
theorem claim_C4_tof_monotone (vel phantom : List ℝ)
    (_hlen : vel.length = phantom.length)
    (hv : ∀ v ∈ vel, 0 ≤ v) (hx : List.Chain' (· < ·) phantom) :
    (ProtonTime vel phantom).head? = some 0
    ∧ (∀ t ∈ ProtonTime vel phantom, 0 ≤ t)
    ∧ List.Chain' (· ≤ ·) (ProtonTime vel phantom) := by
  have hint : ∀ y ∈ vel.map (fun v => if v = 0 then 0 else 1 / v), 0 ≤ y := by
    intro y hy
    simp only [List.mem_map] at hy
    obtain ⟨v, hvm, rfl⟩ := hy
    by_cases hv0 : v = 0
    · simp [hv0]
    · have hpos : 0 < v := lt_of_le_of_ne (hv v hvm) (Ne.symm hv0)
      simp only [hv0, if_false]
      positivity
  obtain ⟨h1, h2⟩ := cumtrapz_props _ phantom hint hx
  exact ⟨cumtrapz_head _ _, h1, h2⟩

/-- Witness for C4 at a concrete input. -/
theorem claim_C4_witness : (ProtonTime [1, 1] [0, 1]).head? = some 0 :=
  (claim_C4_tof_monotone [1, 1] [0, 1] rfl (by norm_num)
    (by norm_num [List.chain'_cons, List.chain'_singleton])).1

lemma npRepeat_cons (b : ℝ) (bt : List ℝ) (c : ℕ) (kt : List ℕ) :
    npRepeat (b :: bt) (c :: kt) = List.replicate c b ++ npRepeat bt kt := by
  simp [npRepeat]

lemma npRepeat_length : ∀ (bs : List ℝ) (ks : List ℕ), bs.length = ks.length →
    (npRepeat bs ks).length = ks.sum := by
  intro bs
  induction bs with
  | nil =>
    intro ks h
    cases ks with
    | nil => simp [npRepeat]
    | cons k kt => simp at h
  | cons b bt ih =>
    intro ks h
    cases ks with
    | nil => simp at h
    | cons c kt =>
      rw [npRepeat_cons, List.length_append, List.length_replicate, List.sum_cons,
        ih kt (by simpa using h)]

lemma npRepeat_block : ∀ (j : ℕ) (bs : List ℝ) (ks : List ℕ) (b : ℝ) (c : ℕ),
    bs.get? j = some b → ks.get? j = some c →
    ((npRepeat bs ks).drop ((ks.take j).sum)).take c = List.replicate c b := by
  intro j
  induction j with
  | zero =>
    intro bs ks b c hb hc
    cases bs with
    | nil => simp at hb
    | cons b0 bt =>
      cases ks with
      | nil => simp at hc
      | cons c0 kt =>
        simp only [List.get?_cons_zero, Option.some_inj] at hb hc
        subst hb
        subst hc
        rw [npRepeat_cons]
        simp only [List.take_zero, List.sum_nil, List.drop_zero]
        exact List.take_left' (by simp)
  | succ j ih =>
    intro bs ks b c hb hc
    cases bs with
    | nil => simp at hb
    | cons b0 bt =>
      cases ks with
      | nil => simp at hc
      | cons c0 kt =>
        simp only [List.get?_cons_succ] at hb hc
        rw [npRepeat_cons, List.take_succ_cons, List.sum_cons, ← List.drop_drop,
          List.drop_left' (List.length_replicate c0 b0)]
        exact ih bt kt b c hb hc

lemma get?_zipWith_add (as bs : List ℝ) (i : ℕ) (x y : ℝ)
    (hx : as.get? i = some x) (hy : bs.get? i = some y) :
    (List.zipWith (· + ·) as bs).get? i = some (x + y) := by
  rw [List.get?_eq_getElem?] at hx hy
  rw [List.get?_zipWith']
  simp [hx, hy]

/-- Claim C7: with the Poisson counts `k` and the per-timestamp Gaussian
jitter draws made explicit inputs, `SimulateBurst` returns exactly
`k.sum` timestamps; before jitter, the block of the event list belonging
to bin `j` consists of exactly `k[j]` copies of that bin's base time
`distMag[j] / 3e8 + tp[j]`; and each individual timestamp is its base
time plus its own jitter entry. -/
theorem claim_C7_event_list (phantom distMag tp : List ℝ) (peak pPB yiel dArea mu : ℝ)
    (k : List ℕ) (jitter : List ℝ)
    (hlen1 : distMag.length = tp.length) (hlen2 : k.length = distMag.length)
    (hj : jitter.length = k.sum) :
    (SimulateBurst phantom distMag peak pPB yiel dArea mu tp k jitter).length = k.sum
    ∧ (∀ (j : ℕ) (b : ℝ) (c : ℕ), (baseTimes distMag tp).get? j = some b →
        k.get? j = some c →
        ((npRepeat (baseTimes distMag tp) k).drop ((k.take j).sum)).take c
          = List.replicate c b)
    ∧ (∀ (i : ℕ) (x y : ℝ), (npRepeat (baseTimes distMag tp) k).get? i = some x →
        jitter.get? i = some y →
        (SimulateBurst phantom distMag peak pPB yiel dArea mu tp k jitter).get? i
          = some (x + y)) := by
  have hbase : (baseTimes distMag tp).length = k.length := by
    simp only [baseTimes, List.length_zipWith]
    omega
  have hrep : (npRepeat (baseTimes distMag tp) k).length = k.sum :=
    npRepeat_length _ _ hbase
  refine ⟨?_, ?_, ?_⟩
  · simp [SimulateBurst, List.length_zipWith, hrep, hj]
  · intro j b c hb hc
    exact npRepeat_block j _ _ b c hb hc
  · intro i x y hx hy
    simpa [SimulateBurst] using get?_zipWith_add _ jitter i x y hx hy

/-- Witness for C7 at a concrete input: two bins with counts 1 and 2
give three timestamps. -/
theorem claim_C7_witness :
    (SimulateBurst [] [1, 2] 0 0 0 0 0 [0, 0] [1, 2] [0, 0, 0]).length = [1, 2].sum :=
  (claim_C7_event_list [] [1, 2] [0, 0] 0 0 0 0 0 [1, 2] [0, 0, 0] rfl rfl
    (by simp)).1

lemma foldl_backStep_id (tExp : List ℝ) (σ : ℝ) :
    ∀ (bins : List (ℝ × ℕ)) (acc : List ℝ), (∀ p ∈ bins, p.2 = 0) →
      bins.foldl (backStep tExp σ) acc = acc := by
  intro bins
  induction bins with
  | nil => intro acc _; rfl
  | cons p t ih =>
    intro acc h
    have hp : p.2 = 0 := h p (List.mem_cons_self _ _)
    rw [List.foldl_cons]
    have hstep : backStep tExp σ acc p = acc := by simp [backStep, hp]
    rw [hstep]
    exact ih acc (fun q hq => h q (List.mem_cons_of_mem _ hq))

lemma correct_zeros (dArea aFactor : ℝ) :
    ∀ (n : ℕ) (distMag : List ℝ),
      ∀ y ∈ correct (List.replicate n 0) dArea distMag aFactor, y = 0 := by
  intro n
  induction n with
  | zero => intro distMag y hy; simp [correct] at hy
  | succ n ih =>
    intro distMag y hy
    cases distMag with
    | nil => simp [correct, sensitivity] at hy
    | cons d dt =>
      simp only [correct, sensitivity, List.replicate_succ, List.map_cons,
        List.zipWith_cons_cons, List.mem_cons] at hy
      rcases hy with rfl | hy
      · exact zero_div _
      · exact ih dt y (by simpa [correct, sensitivity] using hy)

/-- Claim C8: when every time-histogram bin computed from the input has
count zero, `Reconstruction` succeeds and returns a profile that is zero
at every depth bin; the sensitivity and attenuation division of zeros
produces zeros (no division-by-zero artifacts, the distances and factors
being positive). -/
theorem claim_C8_zero_counts (phantom data tp gammaTOF : List ℝ)
    (tBinWidth σ dArea : ℝ) (distMag : List ℝ) (aFactor : ℝ)
    (hne : data ≠ [])
    (hzero : ∀ c ∈ histCounts data (histEdges data tBinWidth), c = 0)
    (_hdA : 0 < dArea) (_hdist : ∀ d ∈ distMag, 0 < d) (_ha : 0 < aFactor) :
    ∃ out, Reconstruction phantom data tp gammaTOF tBinWidth σ dArea distMag aFactor
        = Except.ok out ∧ ∀ y ∈ out, y = 0 := by
  obtain ⟨x, xs, rfl⟩ := List.exists_cons_of_ne_nil hne
  have hbp : backproject (List.zipWith (· + ·) tp gammaTOF) σ phantom.length
      ((tBinCentres (histEdges (x :: xs) tBinWidth)).zip
        (histCounts (x :: xs) (histEdges (x :: xs) tBinWidth)))
      = List.replicate phantom.length 0 := by
    unfold backproject
    apply foldl_backStep_id
    intro p hp
    obtain ⟨a, b⟩ := p
    exact hzero b (List.mem_zip hp).2
  refine ⟨_, rfl, ?_⟩
  rw [hbp]
  exact correct_zeros dArea aFactor phantom.length distMag

/-- Witness for C8 at a concrete input: two equal timestamps make the
histogram edge list a single point, hence zero bins, and the
reconstruction is identically zero. -/
theorem claim_C8_witness :
    ∃ out, Reconstruction [0] [0, 0] [0] [0] 1 1 1 [1] 1 = Except.ok out
        ∧ ∀ y ∈ out, y = 0 :=
  claim_C8_zero_counts [0] [0, 0] [0] [0] 1 1 1 [1] 1 (by simp)
    (by
      intro c hc
      have hedges : histEdges [(0:ℝ), 0] 1 = [0] := by
        norm_num [histEdges, npMin, npMax, npArange, Int.ceil_one, List.range_succ,
          List.range_zero]
      rw [hedges] at hc
      simp [histCounts] at hc)
    (by norm_num) (by intro d hd; simp at hd; simp [hd]) (by norm_num)

lemma foldl_min_le_init : ∀ (t : List ℝ) (a : ℝ), t.foldl min a ≤ a := by
  intro t
  induction t with
  | nil => intro a; exact le_refl a
  | cons y ys ih =>
    intro a
    calc (y :: ys).foldl min a = ys.foldl min (min a y) := rfl
    _ ≤ min a y := ih (min a y)
    _ ≤ a := min_le_left a y

lemma foldl_min_le_mem : ∀ (t : List ℝ) (a x : ℝ), x ∈ t → t.foldl min a ≤ x := by
  intro t
  induction t with
  | nil => intro a x hx; simp at hx
  | cons y ys ih =>
    intro a x hx
    rcases List.mem_cons.mp hx with rfl | hmem
    · calc (x :: ys).foldl min a = ys.foldl min (min a x) := rfl
      _ ≤ min a x := foldl_min_le_init ys (min a x)
      _ ≤ x := min_le_right a x
    · exact ih (min a y) x hmem

lemma init_le_foldl_max : ∀ (t : List ℝ) (a : ℝ), a ≤ t.foldl max a := by
  intro t
  induction t with
  | nil => intro a; exact le_refl a
  | cons y ys ih =>
    intro a
    calc a ≤ max a y := le_max_left a y
    _ ≤ ys.foldl max (max a y) := ih (max a y)
    _ = (y :: ys).foldl max a := rfl

lemma mem_le_foldl_max : ∀ (t : List ℝ) (a x : ℝ), x ∈ t → x ≤ t.foldl max a := by
  intro t
  induction t with
  | nil => intro a x hx; simp at hx
  | cons y ys ih =>
    intro a x hx
    rcases List.mem_cons.mp hx with rfl | hmem
    · calc x ≤ max a x := le_max_right a x
      _ ≤ ys.foldl max (max a x) := init_le_foldl_max ys (max a x)
      _ = (x :: ys).foldl max a := rfl
    · exact ih (max a y) x hmem

lemma npMin_le (data : List ℝ) (x : ℝ) (hx : x ∈ data) : npMin data ≤ x := by
  cases data with
  | nil => simp at hx
  | cons a t =>
    rcases List.mem_cons.mp hx with rfl | hmem
    · exact foldl_min_le_init t x
    · exact foldl_min_le_mem t a x hmem

lemma le_npMax (data : List ℝ) (x : ℝ) (hx : x ∈ data) : x ≤ npMax data := by
  cases data with
  | nil => simp at hx
  | cons a t =>
    rcases List.mem_cons.mp hx with rfl | hmem
    · exact init_le_foldl_max t x
    · exact mem_le_foldl_max t a x hmem

lemma histCounts_nil_sum : ∀ (edges : List ℝ), (histCounts [] edges).sum = 0
  | [] => by simp [histCounts]
  | [_] => by simp [histCounts]
  | [_, _] => by simp [histCounts]
  | a :: b :: c :: t => by
    have ih := histCounts_nil_sum (b :: c :: t)
    simp [histCounts, ih]

lemma histCounts_single_zero (x : ℝ) : ∀ (edges : List ℝ), List.Chain' (· < ·) edges →
    (∀ e0 ∈ edges.head?, x < e0) → (histCounts [x] edges).sum = 0
  | [] => fun _ _ => by simp [histCounts]
  | [_] => fun _ _ => by simp [histCounts]
  | [a, b] => fun _ hx => by
    have hxa : x < a := hx a (by simp)
    simp [histCounts, List.countP_cons, hxa.not_le]
  | a :: b :: c :: t => fun hc hx => by
    have hxa : x < a := hx a (by simp)
    have hab : a < b := (List.chain'_cons.mp hc).1
    have hrest : (histCounts [x] (b :: c :: t)).sum = 0 :=
      histCounts_single_zero x (b :: c :: t) (List.chain'_cons.mp hc).2 (by
        intro e0 he0
        simp only [List.head?_cons, Option.mem_def, Option.some_inj] at he0
        rw [← he0]
        linarith)
    simp [histCounts, List.countP_cons, hxa.not_le, hrest]

lemma histCounts_single_one (x : ℝ) : ∀ (edges : List ℝ), List.Chain' (· < ·) edges →
    (∀ e0 ∈ edges.head?, e0 ≤ x) → (∀ eL ∈ edges.getLast?, x ≤ eL) →
    2 ≤ edges.length → (histCounts [x] edges).sum = 1
  | [] => fun _ _ _ hlen => by simp at hlen
  | [_] => fun _ _ _ hlen => by simp at hlen
  | [a, b] => fun _ hhead hlast _ => by
    have ha : a ≤ x := hhead a (by simp)
    have hb : x ≤ b := hlast b (by simp)
    simp [histCounts, List.countP_cons, ha, hb]
  | a :: b :: c :: t => fun hc hhead hlast _ => by
    have ha : a ≤ x := hhead a (by simp)
    have hab : a < b := (List.chain'_cons.mp hc).1
    have hctail : List.Chain' (· < ·) (b :: c :: t) := (List.chain'_cons.mp hc).2
    by_cases hxb : x < b
    · have hrest : (histCounts [x] (b :: c :: t)).sum = 0 :=
        histCounts_single_zero x (b :: c :: t) hctail (by
          intro e0 he0
          simp only [List.head?_cons, Option.mem_def, Option.some_inj] at he0
          rw [← he0]
          exact hxb)
      simp [histCounts, List.countP_cons, ha, hxb, hrest]
    · have hrest : (histCounts [x] (b :: c :: t)).sum = 1 :=
        histCounts_single_one x (b :: c :: t) hctail (by
          intro e0 he0
          simp only [List.head?_cons, Option.mem_def, Option.some_inj] at he0
          rw [← he0]
          exact not_lt.mp hxb)
          (by
            intro eL heL
            apply hlast
            rwa [List.getLast?_cons_cons])
          (by simp)
      simp [histCounts, List.countP_cons, hxb, hrest]

lemma histCounts_sum_cons (y : ℝ) (ys : List ℝ) : ∀ (edges : List ℝ),
    (histCounts (y :: ys) edges).sum
      = (histCounts [y] edges).sum + (histCounts ys edges).sum
  | [] => by simp [histCounts]
  | [_] => by simp [histCounts]
  | [a, b] => by
    simp only [histCounts, List.sum_cons, List.sum_nil, List.countP_cons, List.countP_nil]
    omega
  | a :: b :: c :: t => by
    have ih := histCounts_sum_cons y ys (b :: c :: t)
    simp only [histCounts, List.sum_cons, List.countP_cons, List.countP_nil] at ih ⊢
    omega

lemma histCounts_sum_eq_length (edges : List ℝ)
    (hc : List.Chain' (· < ·) edges) (hlen : 2 ≤ edges.length) :
    ∀ (data : List ℝ),
      (∀ x ∈ data, (∀ e0 ∈ edges.head?, e0 ≤ x) ∧ (∀ eL ∈ edges.getLast?, x ≤ eL)) →
      (histCounts data edges).sum = data.length := by
  intro data
  induction data with
  | nil => intro _; simp [histCounts_nil_sum]
  | cons y ys ih =>
    intro hmem
    obtain ⟨hhead, hlast⟩ := hmem y (List.mem_cons_self _ _)
    rw [histCounts_sum_cons, histCounts_single_one y edges hc hhead hlast hlen,
      ih (fun x hx => hmem x (List.mem_cons_of_mem _ hx))]
    simp [Nat.add_comm]

lemma npArange_length (start stop step : ℝ) :
    (npArange start stop step).length = (Int.ceil ((stop - start) / step)).toNat := by
  rw [npArange, List.length_map, List.length_range]

lemma npArange_getElem? (start stop step : ℝ) (i : ℕ)
    (h : i < (Int.ceil ((stop - start) / step)).toNat) :
    (npArange start stop step)[i]? = some (start + i * step) := by
  rw [npArange, List.getElem?_map, List.getElem?_range h, Option.map_some']

lemma npArange_chain (start stop step : ℝ) (hstep : 0 < step) :
    List.Chain' (· < ·) (npArange start stop step) := by
  rw [npArange, List.chain'_iff_get]
  intro i h
  simp only [List.length_map, List.length_range] at h
  rw [List.get_eq_getElem, List.get_eq_getElem, List.getElem_map, List.getElem_map,
    List.getElem_range, List.getElem_range]
  push_cast
  nlinarith [hstep]

lemma histCounts_length (data : List ℝ) : ∀ (edges : List ℝ),
    (histCounts data edges).length = edges.length - 1
  | [] => by simp [histCounts]
  | [_] => by simp [histCounts]
  | [_, _] => by simp [histCounts]
  | a :: b :: c :: t => by
    have ih := histCounts_length data (b :: c :: t)
    simp [histCounts, ih]

lemma tBinCentres_length (edges : List ℝ) :
    (tBinCentres edges).length = edges.length - 1 := by
  simp [tBinCentres, List.length_zipWith, List.length_dropLast, List.length_tail]

lemma normWeights_length (tExp : List ℝ) (tBin σ : ℝ) :
    (normWeights tExp tBin σ).length = tExp.length := by
  simp [normWeights, gaussWeights]

lemma zipWith_add_mul_sum : ∀ (acc ws : List ℝ) (c : ℝ), acc.length = ws.length →
    (List.zipWith (fun a w => a + c * w) acc ws).sum = acc.sum + c * ws.sum := by
  intro acc
  induction acc with
  | nil =>
    intro ws c h
    cases ws with
    | nil => simp
    | cons w wt => simp at h
  | cons a at' ih =>
    intro ws c h
    cases ws with
    | nil => simp at h
    | cons w wt =>
      simp only [List.zipWith_cons_cons, List.sum_cons, ih wt c (by simpa using h)]
      ring

lemma foldl_backStep_sum (tExp : List ℝ) (σ : ℝ) (hne : tExp ≠ []) :
    ∀ (bins : List (ℝ × ℕ)) (acc : List ℝ), acc.length = tExp.length →
      (bins.foldl (backStep tExp σ) acc).sum
        = acc.sum + (bins.map (fun p => (p.2 : ℝ))).sum := by
  intro bins
  induction bins with
  | nil => intro acc _; simp
  | cons p t ih =>
    intro acc hacc
    rw [List.foldl_cons]
    by_cases hp : p.2 = 0
    · have hstep : backStep tExp σ acc p = acc := by simp [backStep, hp]
      rw [hstep, ih acc hacc]
      simp [hp]
    · have hstep : backStep tExp σ acc p
          = List.zipWith (fun a w => a + (p.2 : ℝ) * w) acc (normWeights tExp p.1 σ) := by
        simp [backStep, hp]
      have hlz : (List.zipWith (fun a w => a + (p.2 : ℝ) * w) acc
          (normWeights tExp p.1 σ)).length = tExp.length := by
        simp [List.length_zipWith, hacc, normWeights_length]
      rw [hstep, ih _ hlz,
        zipWith_add_mul_sum acc _ _ (by rw [hacc, normWeights_length]),
        normWeights_sum tExp p.1 σ hne]
      simp only [List.map_cons, List.sum_cons]
      ring

/-- Claim C10 (amended): when the timestamp sample contains at least two
distinct values (`npMin data < npMax data`), every timestamp falls into
exactly one histogram bin of the `np.arange` range built from the
sample's minimum and maximum, so with positive bin width and sigma and a
nonempty depth axis the accumulated profile before the
sensitivity/attenuation division sums to the total number of input
timestamps.  (The original claim fails when all timestamps coincide: the
edge list degenerates to a single point and no bins exist.) -/
theorem claim_C10_count_conservation (phantom tp gammaTOF data : List ℝ) (w σ : ℝ)
    (hw : 0 < w) (_hσ : 0 < σ)
    (hmm : npMin data < npMax data)
    (hlen : (List.zipWith (· + ·) tp gammaTOF).length = phantom.length)
    (hph : phantom ≠ []) :
    (backproject (List.zipWith (· + ·) tp gammaTOF) σ phantom.length
        ((tBinCentres (histEdges data w)).zip (histCounts data (histEdges data w)))).sum
      = (data.length : ℝ) := by
  have hwne : w ≠ 0 := ne_of_gt hw
  have hceil : Int.ceil ((npMax data + w - npMin data) / w)
      = Int.ceil ((npMax data - npMin data) / w) + 1 := by
    rw [show npMax data + w - npMin data = (npMax data - npMin data) + w by ring, add_div,
      div_self hwne, Int.ceil_add_one]
  have hcpos : 0 < Int.ceil ((npMax data - npMin data) / w) :=
    Int.ceil_pos.mpr (div_pos (by linarith) hw)
  have hlenE : (histEdges data w).length
      = (Int.ceil ((npMax data - npMin data) / w) + 1).toNat := by
    unfold histEdges
    rw [npArange_length, hceil]
  have hN2 : 2 ≤ (histEdges data w).length := by
    rw [hlenE]; omega
  have hchain : List.Chain' (· < ·) (histEdges data w) := by
    unfold histEdges
    exact npArange_chain _ _ _ hw
  have h0lt : 0 < (Int.ceil ((npMax data + w - npMin data) / w)).toNat := by
    rw [hceil]; omega
  have hhead : (histEdges data w).head? = some (npMin data) := by
    unfold histEdges
    rw [List.head?_eq_getElem?, npArange_getElem? _ _ _ 0 h0lt]
    norm_num
  have hm1lt : (histEdges data w).length - 1
      < (Int.ceil ((npMax data + w - npMin data) / w)).toNat := by
    have heq : (histEdges data w).length
        = (Int.ceil ((npMax data + w - npMin data) / w)).toNat := by
      unfold histEdges
      rw [npArange_length]
    omega
  have hlast : (histEdges data w).getLast?
      = some (npMin data + (((histEdges data w).length - 1 : ℕ) : ℝ) * w) := by
    unfold histEdges
    rw [List.getLast?_eq_getElem?, npArange_getElem? _ _ _ _ (by rw [npArange_length]; omega)]
  have hcastL : (((histEdges data w).length - 1 : ℕ) : ℝ)
      = ((Int.ceil ((npMax data - npMin data) / w) : ℤ) : ℝ) := by
    have h1 : (((histEdges data w).length - 1 : ℕ) : ℤ)
        = Int.ceil ((npMax data - npMin data) / w) := by
      rw [hlenE]; omega
    exact_mod_cast h1
  have hmxle : npMax data
      ≤ npMin data + (((histEdges data w).length - 1 : ℕ) : ℝ) * w := by
    rw [hcastL]
    have h2 : (npMax data - npMin data) / w
        ≤ ((Int.ceil ((npMax data - npMin data) / w) : ℤ) : ℝ) := Int.le_ceil _
    have h3 : ((npMax data - npMin data) / w) * w
        ≤ ((Int.ceil ((npMax data - npMin data) / w) : ℤ) : ℝ) * w :=
      mul_le_mul_of_nonneg_right h2 hw.le
    rw [div_mul_cancel₀ _ hwne] at h3
    linarith
  have hsum : (histCounts data (histEdges data w)).sum = data.length := by
    apply histCounts_sum_eq_length _ hchain hN2
    intro x hx
    refine ⟨?_, ?_⟩
    · intro e0 he0
      rw [hhead] at he0
      simp only [Option.mem_def, Option.some_inj] at he0
      rw [← he0]
      exact npMin_le data x hx
    · intro eL heL
      rw [hlast] at heL
      simp only [Option.mem_def, Option.some_inj] at heL
      rw [← heL]
      exact le_trans (le_npMax data x hx) hmxle
  have htne : List.zipWith (· + ·) tp gammaTOF ≠ [] := by
    intro h0
    apply hph
    rw [h0] at hlen
    exact List.length_eq_zero.mp hlen.symm
  have hrepl : (List.replicate phantom.length (0:ℝ)).length
      = (List.zipWith (· + ·) tp gammaTOF).length := by
    rw [List.length_replicate, hlen]
  have hsnd : ((tBinCentres (histEdges data w)).zip
        (histCounts data (histEdges data w))).map Prod.snd
      = histCounts data (histEdges data w) :=
    List.map_snd_zip _ _ (by rw [tBinCentres_length, histCounts_length])
  rw [show backproject (List.zipWith (· + ·) tp gammaTOF) σ phantom.length
        ((tBinCentres (histEdges data w)).zip (histCounts data (histEdges data w)))
      = ((tBinCentres (histEdges data w)).zip (histCounts data (histEdges data w))).foldl
          (backStep (List.zipWith (· + ·) tp gammaTOF) σ)
          (List.replicate phantom.length 0) from rfl]
  rw [foldl_backStep_sum _ σ htne _ _ hrepl]
  rw [show (fun p : ℝ × ℕ => (p.2 : ℝ)) = (fun n : ℕ => (n : ℝ)) ∘ Prod.snd from rfl,
    ← List.map_map, hsnd, ← Nat.cast_list_sum, hsum]
  simp

/-- Witness for the amended C10: two distinct timestamps 0 and 1, unit
bin width and sigma, a one-bin depth axis. -/
theorem claim_C10_witness :
    (backproject (List.zipWith (· + ·) [(0:ℝ)] [(0:ℝ)]) 1 (List.length [(0:ℝ)])
        ((tBinCentres (histEdges [(0:ℝ), 1] 1)).zip
          (histCounts [(0:ℝ), 1] (histEdges [(0:ℝ), 1] 1)))).sum
      = ((List.length [(0:ℝ), 1] : ℕ) : ℝ) :=
  claim_C10_count_conservation [(0:ℝ)] [(0:ℝ)] [(0:ℝ)] [(0:ℝ), 1] 1 1
    (by norm_num) (by norm_num)
    (by norm_num [npMin, npMax])
    (by simp) (by simp)

/-- Counterexample to C10 as stated: for the nonempty single-timestamp
collection `[0]` with positive bin width and sigma, the `np.arange` edge
list is the single point `[0]`, the histogram has no bins, and the
accumulated profile sums to `0`, not to the input size `1`. -/
theorem claim_C10_counterexample :
    ¬ ((backproject (List.zipWith (· + ·) [(0:ℝ)] [(0:ℝ)]) 1 (List.length [(0:ℝ)])
        ((tBinCentres (histEdges [(0:ℝ)] 1)).zip
          (histCounts [(0:ℝ)] (histEdges [(0:ℝ)] 1)))).sum
      = ((List.length [(0:ℝ)] : ℕ) : ℝ)) := by
  have hedges : histEdges [(0:ℝ)] 1 = [0] := by
    norm_num [histEdges, npMin, npMax, npArange, Int.ceil_one, List.range_succ,
      List.range_zero]
  rw [hedges]
  norm_num [tBinCentres, histCounts, backproject, List.replicate]

end PGT

end
